import Mathlib

/-!
# A shallow embedding of the `rust-fr` binary codec

This file models the canonical codec of the repository: the bit-level
serializer in `src/protocol/serializer.rs` (backed by a `BitVec<u8, Lsb0>`)
and its deserializer in `src/deserializer.rs`.  The bit stream is modelled
as a `List Bool` in Lsb0 order (bit `i` of byte `b` is `b.testBit i`).
Serde's type-driven dispatch is modelled by a deep `Value`/`Shape` pair:
`serialize` walks a `Value` exactly as the `Serializer` impl does, and
`decodeF` walks a `Shape` exactly as the `Deserializer` impl does.

Rust panics (out-of-range `BitSlice` indexing, `Option::unwrap` on `None`)
are modelled by the dedicated error constructor `Error.panicked`, which is
never produced by the source's own `Error` enum.
-/

set_option maxRecDepth 100000

namespace RustFr

/-! ## Bits and bytes -/

/-- The 8 bits of a byte, least-significant first (`Lsb0`), as
`bitvec`'s `extend` of a `u8` stores them. -/
def byteToBits (n : Nat) : List Bool :=
  (List.range 8).map (fun i => n.testBit i)

/-- A byte list as a flat Lsb0 bit stream (`BitVec::extend` over bytes). -/
def bytesToBits (l : List Nat) : List Bool :=
  (l.map byteToBits).flatten

/-- Reassemble a byte value from bits, as the source's
`byte |= 1 << i` loop over a `BitSlice` does. -/
def bitsVal (l : List Bool) : Nat :=
  l.foldr (fun b acc => 2 * acc + (if b then 1 else 0)) 0

/-- The little-endian bytes of an unsigned integer, width `w` bytes
(`u{8,16,32,64}::to_le_bytes`). -/
def natLEBytes : Nat → Nat → List Nat
  | 0, _ => []
  | w + 1, n => n % 256 :: natLEBytes w (n / 256)

/-- Models `u{N}::from_le_bytes`. -/
def bytesToNatLE : List Nat → Nat
  | [] => 0
  | b :: rest => b + 256 * bytesToNatLE rest

/-- Unsigned integer of byte width `w` as a bit stream. -/
def uintToBits (w n : Nat) : List Bool :=
  bytesToBits (natLEBytes w n)

/-- Signed integer of byte width `w` as a bit stream: two's-complement
little-endian bytes (`i{N}::to_le_bytes`). -/
def intToBits (w : Nat) (v : Int) : List Bool :=
  uintToBits w ((v % ((2 : Int) ^ (8 * w))).toNat)

/-- First `n` bytes of a bit stream, as `eat_bytes`'s inner loop
assembles them. -/
def bitsToBytesN : Nat → List Bool → List Nat
  | 0, _ => []
  | n + 1, l => bitsVal (l.take 8) :: bitsToBytesN n (l.drop 8)

/-- A bit stream chunked into bytes (`BitVec::into_vec`; a trailing
partial byte is completed by the zero bits `into_vec` leaves there). -/
def bitsToBytes (l : List Bool) : List Nat :=
  bitsToBytesN ((l.length + 7) / 8) l

/-- Zero-padding `into_vec` applies to a trailing partial byte. -/
def padToByte (l : List Bool) : List Bool :=
  l ++ List.replicate ((8 - l.length % 8) % 8) false

@[simp] theorem byteToBits_length (n : Nat) : (byteToBits n).length = 8 := by
  simp [byteToBits]

theorem bitsVal_byteToBits : ∀ n < 256, bitsVal (byteToBits n) = n := by decide

@[simp] theorem bytesToBits_nil : bytesToBits [] = [] := rfl

@[simp] theorem bytesToBits_cons (b : Nat) (l : List Nat) :
    bytesToBits (b :: l) = byteToBits b ++ bytesToBits l := by
  simp [bytesToBits]

theorem bytesToBits_append (a b : List Nat) :
    bytesToBits (a ++ b) = bytesToBits a ++ bytesToBits b := by
  simp [bytesToBits]

@[simp] theorem bytesToBits_length (l : List Nat) :
    (bytesToBits l).length = 8 * l.length := by
  induction l with
  | nil => rfl
  | cons b t ih => simp [ih, Nat.mul_succ, Nat.add_comm]

@[simp] theorem natLEBytes_length (w n : Nat) : (natLEBytes w n).length = w := by
  induction w generalizing n with
  | zero => rfl
  | succ w ih => simp [natLEBytes, ih]

theorem natLEBytes_lt (w n : Nat) : ∀ b ∈ natLEBytes w n, b < 256 := by
  induction w generalizing n with
  | zero => intro b hb; cases hb
  | succ w ih =>
    intro b hb
    rcases (List.mem_cons).1 hb with h | h
    · subst h; exact Nat.mod_lt _ (by norm_num)
    · exact ih (n / 256) b h

theorem bytesToNatLE_natLEBytes (w n : Nat) :
    bytesToNatLE (natLEBytes w n) = n % 256 ^ w := by
  induction w generalizing n with
  | zero => simp [natLEBytes, bytesToNatLE, Nat.mod_one]
  | succ w ih =>
    rw [natLEBytes, bytesToNatLE, ih, pow_succ, Nat.mul_comm (256 ^ w) 256,
      Nat.mod_mul]

theorem bytesToNatLE_natLEBytes_self (w n : Nat) (h : n < 256 ^ w) :
    bytesToNatLE (natLEBytes w n) = n := by
  rw [bytesToNatLE_natLEBytes, Nat.mod_eq_of_lt h]

theorem bitsToBytesN_bytesToBits (bs : List Nat) (rest : List Bool)
    (h : ∀ b ∈ bs, b < 256) :
    bitsToBytesN bs.length (bytesToBits bs ++ rest) = bs := by
  induction bs generalizing rest with
  | nil => rfl
  | cons b t ih =>
    have hb : b < 256 := h b (List.mem_cons_self b t)
    have ht : ∀ x ∈ t, x < 256 := fun x hx => h x (List.mem_cons_of_mem b hx)
    have htake : (byteToBits b ++ (bytesToBits t ++ rest)).take 8 = byteToBits b := by
      rw [← byteToBits_length b]
      exact List.take_left _ _
    have hdrop : (byteToBits b ++ (bytesToBits t ++ rest)).drop 8 = bytesToBits t ++ rest := by
      rw [← byteToBits_length b]
      exact List.drop_left _ _
    simp only [List.length_cons, bytesToBits_cons, bitsToBytesN, List.append_assoc,
      htake, hdrop, bitsVal_byteToBits b hb, ih rest ht]

theorem bitsToBytes_bytesToBits (bs : List Nat) (h : ∀ b ∈ bs, b < 256) :
    bitsToBytes (bytesToBits bs) = bs := by
  have hlen : ((bytesToBits bs).length + 7) / 8 = bs.length := by
    simp [Nat.mul_comm]
    omega
  rw [bitsToBytes, hlen, ← List.append_nil (bytesToBits bs),
    bitsToBytesN_bytesToBits bs [] h]

/-! ## The token vocabulary (`Delimiter` in `src/protocol/serializer.rs`) -/

/-- The sentinel set of the format. -/
inductive Delimiter
  | string
  | byte
  | unit
  | seq
  | seqValue
  | map
  | mapKey
  | mapValue
deriving DecidableEq, Repr

/-- The discriminant value of each token (`Delimiter as u8`). -/
def tokenValue : Delimiter → Nat
  | .string => 134
  | .byte => 135
  | .unit => 2
  | .seq => 3
  | .seqValue => 4
  | .map => 5
  | .mapKey => 6
  | .mapValue => 7

/-- The exact bit pattern `serialize_token` appends for each token. -/
def tokenBits : Delimiter → List Bool
  | .string => [false, true, true, false, false, false, false, true]
  | .byte => [true, true, true, false, false, false, false, true]
  | .unit => [false, true, false]
  | .seq => [true, true, false]
  | .seqValue => [false, false, true]
  | .map => [true, false, true]
  | .mapKey => [false, true, true]
  | .mapValue => [true, true, true]

/-- Each token's bit pattern reassembles to its discriminant value. -/
theorem bitsVal_tokenBits : ∀ d : Delimiter, bitsVal (tokenBits d) = tokenValue d := by
  intro d
  cases d <;> rfl

/-! ## Errors

Constructors mirror the deserializer's uses of `Error`
(`NoByte`, `NoBit`, `NLargerThanLength`, `UnexpectedEOF`, `InvalidTypeSize`,
`ConversionError`, `ExpectedDelimiter`, `UnsupportedCall`, and serde's
`custom` which builds `DeserializationError`).  `panicked` does not model a
constructor of the source's `Error` enum: it marks control flow on which the
Rust code panics (out-of-range slice indexing, `unwrap` on `None`). -/

inductive Error
  | NoByte
  | NoBit
  | NLargerThanLength (n len : Nat)
  | UnexpectedEOF
  | InvalidTypeSize
  | ConversionError
  | ExpectedDelimiter (d : Delimiter)
  | UnsupportedCall (s : String)
  | DeserializationError (s : String)
  | panicked (s : String)
deriving DecidableEq, Repr

/-! ## Values and shapes

`Value` is the deep model of the serde data that the codec supports;
`Shape` is the statically-known target type that drives decoding.
Integer values carry their mathematical value; the width invariants
(`n < 2^width` and the like) appear as hypotheses where results need them. -/

inductive Value
  | vBool (b : Bool)
  | vU8 (n : Nat)
  | vU16 (n : Nat)
  | vU32 (n : Nat)
  | vU64 (n : Nat)
  | vI8 (v : Int)
  | vI16 (v : Int)
  | vI32 (v : Int)
  | vI64 (v : Int)
  | vChar (c : Nat)
  | vUnit
  | vStr (bs : List Nat)
  | vBytes (bs : List Nat)
  | vOpt (o : Option Value)
  | vSeq (l : List Value)
  | vMap (l : List (Value × Value))
  | vUnitVariant (idx : Nat)
  | vNewtypeVariant (idx : Nat) (v : Value)
  | vTupleVariant (idx : Nat) (l : List Value)
  | vStructVariant (idx : Nat) (l : List (Value × Value))

/-! ## The serializer (`CustomSerializer` in `src/protocol/serializer.rs`)

The serializer owns a growable bit buffer `data`; every method appends to
it.  `serialize acc v` models `v.serialize(&mut serializer)` on a
serializer whose buffer currently holds `acc`. -/

/-- Models `CustomSerializer::_peek_n_bits`: the last `size` bits of the buffer. -/
def serPeekNBits (data : List Bool) (size : Nat) : Except Error (List Bool) :=
  if size > data.length then .error (.NLargerThanLength size data.length)
  else .ok (data.drop (data.length - size))

/-- Models `CustomSerializer::peek_token`: whether the last bits of the buffer
match `token` (8 bits for `String`/`Byte`, 3 bits otherwise). -/
def serPeekToken (data : List Bool) (token : Delimiter) : Except Error Bool :=
  match serPeekNBits data (match token with | .string | .byte => 8 | _ => 3) with
  | .error e => .error e
  | .ok bits => .ok (bitsVal bits == tokenValue token)

/-- Models `CustomSerializer::peek_token_before_n_bits`: the value of the 3 bits
sitting just before the last `n` bits of the buffer. -/
def serPeekTokenBefore (data : List Bool) (n : Nat) : Except Error Nat :=
  match serPeekNBits data (n + 3) with
  | .error e => .error e
  | .ok bits => .ok (bitsVal (bits.take 3))

mutual

/-- The `Serializer` impl: one case per serde method, appending exactly the
bits the source appends.  Tuples/tuple-structs share the `vSeq` encoding and
structs share the `vMap` encoding, as in the source. -/
def serialize (acc : List Bool) : Value → Except Error (List Bool)
  | .vBool b => .ok (acc ++ [b])
  | .vU8 n => .ok (acc ++ uintToBits 1 n)
  | .vU16 n => .ok (acc ++ uintToBits 2 n)
  | .vU32 n => .ok (acc ++ uintToBits 4 n)
  | .vU64 n => .ok (acc ++ uintToBits 8 n)
  | .vI8 v => .ok (acc ++ intToBits 1 v)
  | .vI16 v => .ok (acc ++ intToBits 2 v)
  | .vI32 v => .ok (acc ++ intToBits 4 v)
  | .vI64 v => .ok (acc ++ intToBits 8 v)
  | .vChar c => .ok (acc ++ uintToBits 4 c)
  | .vUnit => .ok (acc ++ tokenBits .unit)
  | .vStr bs => .ok (acc ++ bytesToBits bs ++ tokenBits .string)
  | .vBytes bs => .ok (acc ++ bytesToBits bs ++ tokenBits .byte)
  | .vOpt none => .ok (acc ++ tokenBits .unit)
  | .vOpt (some v) => serialize acc v
  | .vSeq l =>
    match serializeSeqElems (acc ++ tokenBits .seq) l with
    | .error e => .error e
    | .ok acc1 => .ok (acc1 ++ tokenBits .seq)
  | .vMap l =>
    match serializeMapEntries acc l with
    | .error e => .error e
    | .ok acc1 => .ok (acc1 ++ tokenBits .map)
  | .vUnitVariant idx => .ok (acc ++ uintToBits 4 idx)
  | .vNewtypeVariant idx v => serialize (acc ++ uintToBits 4 idx) v
  | .vTupleVariant idx l =>
    match serializeTupleVariantElems (acc ++ uintToBits 4 idx ++ tokenBits .seq) l with
    | .error e => .error e
    | .ok acc1 => .ok (acc1 ++ tokenBits .seq)
  | .vStructVariant idx l =>
    match serializeMapEntries (acc ++ uintToBits 4 idx) l with
    | .error e => .error e
    | .ok acc1 => .ok (acc1 ++ tokenBits .map)

/-- Models `SerializeSeq::serialize_element` iterated: a `SeqValue` separator is
inserted before an element unless the buffer currently ends in the `Seq`
token's bit pattern. -/
def serializeSeqElems (acc : List Bool) : List Value → Except Error (List Bool)
  | [] => .ok acc
  | v :: rest =>
    match serPeekToken acc .seq with
    | .error e => .error e
    | .ok isFirst =>
      match serialize (if isFirst then acc else acc ++ tokenBits .seqValue) v with
      | .error e => .error e
      | .ok acc1 => serializeSeqElems acc1 rest

/-- Models the `SerializeMap`/`SerializeStruct` methods iterated: each entry appends
`key ++ MapKey ++ value ++ MapValue`. -/
def serializeMapEntries (acc : List Bool) : List (Value × Value) → Except Error (List Bool)
  | [] => .ok acc
  | (k, v) :: rest =>
    match serialize acc k with
    | .error e => .error e
    | .ok acc1 =>
      match serialize (acc1 ++ tokenBits .mapKey) v with
      | .error e => .error e
      | .ok acc2 => serializeMapEntries (acc2 ++ tokenBits .mapValue) rest

/-- Models `SerializeTupleVariant::serialize_field` iterated: the separator test
peeks the 3 bits before the last 32 bits of the buffer. -/
def serializeTupleVariantElems (acc : List Bool) : List Value → Except Error (List Bool)
  | [] => .ok acc
  | v :: rest =>
    match serPeekTokenBefore acc 32 with
    | .error e => .error e
    | .ok t =>
      match serialize (if t == tokenValue .seq then acc else acc ++ tokenBits .seqValue) v with
      | .error e => .error e
      | .ok acc1 => serializeTupleVariantElems acc1 rest

end

/-- Models `to_bytes`: serialize into an empty buffer and return
`BitVec::into_vec`'s bytes (the trailing partial byte zero-padded). -/
def to_bytes (v : Value) : Except Error (List Nat) :=
  match serialize [] v with
  | .error e => .error e
  | .ok data => .ok (bitsToBytes (padToByte data))

/-! ## The deserializer (`CustomDeserializer` in `src/deserializer.rs`)

The deserializer borrows the input bits and advances a cursor; each
function takes the remaining bits and returns the parsed value together
with the bits left over. -/

/-- Models `CustomDeserializer::_peek_n_bits`: the first `size` bits. -/
def dePeekNBits (data : List Bool) (size : Nat) : Except Error (List Bool) :=
  if size > data.length then .error (.NLargerThanLength size data.length)
  else .ok (data.take size)

/-- Models `CustomDeserializer::peek_byte`. -/
def peek_byte (data : List Bool) : Except Error Nat :=
  match dePeekNBits data 8 with
  | .error e => .error e
  | .ok bits => .ok (bitsVal bits)

/-- Bit width `peek_token`/`eat_token` use for a token on the decoder
side: 8 for `String`, `Byte` and `Map`, 3 otherwise.  (The encoder's
`peek_token` uses 3 bits for `Map`.) -/
def tokenWidthDe : Delimiter → Nat
  | .string => 8
  | .byte => 8
  | .map => 8
  | _ => 3

/-- Models `CustomDeserializer::peek_token`. -/
def peek_token (data : List Bool) (token : Delimiter) : Except Error Bool :=
  match dePeekNBits data (tokenWidthDe token) with
  | .error e => .error e
  | .ok bits => .ok (bitsVal bits == tokenValue token)

/-- Models `CustomDeserializer::eat_bit`. -/
def eat_bit (data : List Bool) : Except Error (Bool × List Bool) :=
  match dePeekNBits data 1 with
  | .error e => .error e
  | .ok bits =>
    match bits.head? with
    | none => .error .NoBit
    | some b => .ok (b, data.drop 1)

/-- Models `CustomDeserializer::eat_byte`. -/
def eat_byte (data : List Bool) : Except Error (Nat × List Bool) :=
  match peek_byte data with
  | .error e => .error e
  | .ok b => .ok (b, data.drop 8)

/-- Models `CustomDeserializer::eat_bytes`: slices `n * 8` bits up front with
`&self.data[..n * 8]`, which panics when fewer bits remain — there is no
length check in the source. -/
def eat_bytes (data : List Bool) (n : Nat) : Except Error (List Nat × List Bool) :=
  if n * 8 ≤ data.length then .ok (bitsToBytesN n data, data.drop (n * 8))
  else .error (.panicked "range end index out of range for bitslice")

/-- Models `CustomDeserializer::eat_token`: unconditionally removes the token's
bit width from the front; the only check is that enough bits remain. -/
def eat_token (data : List Bool) (token : Delimiter) : Except Error (List Bool) :=
  if data.length < tokenWidthDe token then .error .UnexpectedEOF
  else .ok (data.drop (tokenWidthDe token))

/-- Models `CustomDeserializer::parse_bool`. -/
def parse_bool (data : List Bool) : Except Error (Bool × List Bool) :=
  eat_bit data

/-- Models `CustomDeserializer::parse_unsigned::<T>` with `w = size_of::<T>()`.
The guard faithfully reproduces the source's `self.data.len() < length`,
which compares the remaining *bit* count against the *byte* width. -/
def parse_unsigned (data : List Bool) (w : Nat) : Except Error (Nat × List Bool) :=
  if data.length < w then .error .UnexpectedEOF
  else match w with
  | 1 => eat_byte data
  | 2 | 4 | 8 =>
    match eat_bytes data w with
    | .error e => .error e
    | .ok (bs, rest) => .ok (bytesToNatLE bs, rest)
  | _ => .error .InvalidTypeSize

/-- Two's-complement reading of `w` little-endian bytes
(`i{N}::from_le_bytes`). -/
def sintOfBytes (w : Nat) (bs : List Nat) : Int :=
  let n := bytesToNatLE bs
  if n < 2 ^ (8 * w - 1) then (n : Int) else (n : Int) - 2 ^ (8 * w)

/-- Models `CustomDeserializer::parse_signed::<T>`, same bit-vs-byte guard. -/
def parse_signed (data : List Bool) (w : Nat) : Except Error (Int × List Bool) :=
  if data.length < w then .error .UnexpectedEOF
  else match w with
  | 1 =>
    match eat_byte data with
    | .error e => .error e
    | .ok (b, rest) => .ok (sintOfBytes 1 [b], rest)
  | 2 | 4 | 8 =>
    match eat_bytes data w with
    | .error e => .error e
    | .ok (bs, rest) => .ok (sintOfBytes w bs, rest)
  | _ => .error .InvalidTypeSize

/-- Models `CustomDeserializer::parse_char`: reads a `u32` and calls
`char::from_u32(value).unwrap()`, which panics on a non-scalar value. -/
def parse_char (data : List Bool) : Except Error (Nat × List Bool) :=
  match parse_unsigned data 4 with
  | .error e => .error e
  | .ok (c, rest) =>
    if (0xD800 ≤ c ∧ c ≤ 0xDFFF) ∨ 0x10FFFF < c then
      .error (.panicked "called Option::unwrap on a None value")
    else .ok (c, rest)

/-- Whether a continuation byte is well-formed (`0x80..=0xBF`). -/
def utf8Cont (b : Nat) : Bool := 0x80 ≤ b ∧ b ≤ 0xBF

/-- Models the validity check of `String::from_utf8`, byte by byte. -/
def utf8Valid : List Nat → Bool
  | [] => true
  | b :: rest =>
    if b ≤ 0x7F then utf8Valid rest
    else if 0xC2 ≤ b ∧ b ≤ 0xDF then
      match rest with
      | c1 :: r => utf8Cont c1 && utf8Valid r
      | _ => false
    else if b = 0xE0 then
      match rest with
      | c1 :: c2 :: r => (0xA0 ≤ c1 && c1 ≤ 0xBF) && utf8Cont c2 && utf8Valid r
      | _ => false
    else if (0xE1 ≤ b ∧ b ≤ 0xEC) ∨ b = 0xEE ∨ b = 0xEF then
      match rest with
      | c1 :: c2 :: r => utf8Cont c1 && utf8Cont c2 && utf8Valid r
      | _ => false
    else if b = 0xED then
      match rest with
      | c1 :: c2 :: r => (0x80 ≤ c1 && c1 ≤ 0x9F) && utf8Cont c2 && utf8Valid r
      | _ => false
    else if b = 0xF0 then
      match rest with
      | c1 :: c2 :: c3 :: r => (0x90 ≤ c1 && c1 ≤ 0xBF) && utf8Cont c2 && utf8Cont c3 && utf8Valid r
      | _ => false
    else if 0xF1 ≤ b ∧ b ≤ 0xF3 then
      match rest with
      | c1 :: c2 :: c3 :: r => utf8Cont c1 && utf8Cont c2 && utf8Cont c3 && utf8Valid r
      | _ => false
    else if b = 0xF4 then
      match rest with
      | c1 :: c2 :: c3 :: r => (0x80 ≤ c1 && c1 ≤ 0x8F) && utf8Cont c2 && utf8Cont c3 && utf8Valid r
      | _ => false
    else false

/-- The loop of `CustomDeserializer::parse_str`: eat one byte, push it,
then check for the closing `String` token; repeat.  The first arm spells
out `eat_byte`'s take-8/drop-8 on an explicit 8-bit prefix so the
recursion is structural; the fallback arm is `eat_byte`'s
`NLargerThanLength(8, len)` error on short input. -/
def parseStrLoop : List Bool → List Nat → Except Error (List Nat × List Bool)
  | b0 :: b1 :: b2 :: b3 :: b4 :: b5 :: b6 :: b7 :: rest, acc =>
    let acc1 := acc ++ [bitsVal [b0, b1, b2, b3, b4, b5, b6, b7]]
    match peek_token rest .string with
    | .error e => .error e
    | .ok true =>
      match eat_token rest .string with
      | .error e => .error e
      | .ok rest1 => .ok (acc1, rest1)
    | .ok false => parseStrLoop rest acc1
  | data, _ => .error (.NLargerThanLength 8 data.length)

/-- Models `CustomDeserializer::parse_str`: the byte loop followed by
`String::from_utf8`, whose failure maps to `ConversionError`.  The parsed
string is represented by its UTF-8 bytes. -/
def parse_str (data : List Bool) : Except Error (List Nat × List Bool) :=
  match parseStrLoop data [] with
  | .error e => .error e
  | .ok (bs, rest) =>
    if utf8Valid bs then .ok (bs, rest) else .error .ConversionError

/-- The loop of `CustomDeserializer::parse_bytes`: check for the closing
`Byte` token first, otherwise eat one byte and push it.  As in
`parseStrLoop` the 8-bit prefix is spelled out; the fallback arm is
`peek_token`'s `NLargerThanLength(8, len)` error. -/
def parseBytesLoop : List Bool → List Nat → Except Error (List Nat × List Bool)
  | b0 :: b1 :: b2 :: b3 :: b4 :: b5 :: b6 :: b7 :: rest, acc =>
    if bitsVal [b0, b1, b2, b3, b4, b5, b6, b7] == tokenValue .byte then
      .ok (acc, rest)
    else parseBytesLoop rest (acc ++ [bitsVal [b0, b1, b2, b3, b4, b5, b6, b7]])
  | data, _ => .error (.NLargerThanLength 8 data.length)

/-- Models `CustomDeserializer::parse_bytes` starting from an empty buffer. -/
def parse_bytes (data : List Bool) : Except Error (List Nat × List Bool) :=
  parseBytesLoop data []

/-- Models `deserialize_any`: the format is not self-describing, so the call is
always rejected. -/
def deserialize_any (_data : List Bool) : Except Error (Value × List Bool) :=
  .error (.UnsupportedCall "deserialize_any")

/-- Models `deserialize_ignored_any`: likewise always rejected. -/
def deserialize_ignored_any (_data : List Bool) : Except Error (Value × List Bool) :=
  .error (.UnsupportedCall "deserialize_ignored_any")

/-! ## Shapes and shape-driven decoding

`Shape` is the caller-supplied target type.  `decodeF` is fuel-indexed so
that the collection loops (which the source runs as unbounded `loop`s
driven by serde's visitors) are structurally recursive; `from_bytes`
supplies ample fuel and every theorem below either fixes the fuel shape
or holds for all fuel. -/

mutual

/-- The payload kind of one enum variant, as the target type declares it:
unit, newtype, tuple (decoded through `deserialize_seq`, the payload being
a sequence of values of one shape) or struct (decoded through
`deserialize_struct`, i.e. `deserialize_map`). -/
inductive VariantShape
  | vsUnit
  | vsNewtype (s : Shape)
  | vsTuple (s : Shape)
  | vsStruct (k v : Shape)

/-- The statically-known shape decoding is driven by. -/
inductive Shape
  | sBool
  | sU8
  | sU16
  | sU32
  | sU64
  | sI8
  | sI16
  | sI32
  | sI64
  | sChar
  | sUnit
  | sStr
  | sBytes
  | sOpt (s : Shape)
  | sSeq (s : Shape)
  | sMap (k v : Shape)
  | sEnum (variants : List VariantShape)

end

mutual

/-- The `Deserializer` impl, driven by the requested `Shape`: one case per
serde method, consuming exactly the bits the source consumes.  Fuel only
bounds the collection loops; it is threaded through every recursive call. -/
def decodeF : Nat → Shape → List Bool → Except Error (Value × List Bool)
  | 0, _, _ => .error (.DeserializationError "model: out of fuel")
  | fuel + 1, s, data =>
    match s with
    | .sBool =>
      match parse_bool data with
      | .error e => .error e
      | .ok (b, rest) => .ok (.vBool b, rest)
    | .sU8 =>
      match parse_unsigned data 1 with
      | .error e => .error e
      | .ok (n, rest) => .ok (.vU8 n, rest)
    | .sU16 =>
      match parse_unsigned data 2 with
      | .error e => .error e
      | .ok (n, rest) => .ok (.vU16 n, rest)
    | .sU32 =>
      match parse_unsigned data 4 with
      | .error e => .error e
      | .ok (n, rest) => .ok (.vU32 n, rest)
    | .sU64 =>
      match parse_unsigned data 8 with
      | .error e => .error e
      | .ok (n, rest) => .ok (.vU64 n, rest)
    | .sI8 =>
      match parse_signed data 1 with
      | .error e => .error e
      | .ok (v, rest) => .ok (.vI8 v, rest)
    | .sI16 =>
      match parse_signed data 2 with
      | .error e => .error e
      | .ok (v, rest) => .ok (.vI16 v, rest)
    | .sI32 =>
      match parse_signed data 4 with
      | .error e => .error e
      | .ok (v, rest) => .ok (.vI32 v, rest)
    | .sI64 =>
      match parse_signed data 8 with
      | .error e => .error e
      | .ok (v, rest) => .ok (.vI64 v, rest)
    | .sChar =>
      match parse_char data with
      | .error e => .error e
      | .ok (c, rest) => .ok (.vChar c, rest)
    | .sStr =>
      match parse_str data with
      | .error e => .error e
      | .ok (bs, rest) => .ok (.vStr bs, rest)
    | .sBytes =>
      match parse_bytes data with
      | .error e => .error e
      | .ok (bs, rest) => .ok (.vBytes bs, rest)
    | .sUnit =>
      match peek_token data .unit with
      | .error e => .error e
      | .ok true =>
        match eat_token data .unit with
        | .error e => .error e
        | .ok rest => .ok (.vUnit, rest)
      | .ok false => .error (.ExpectedDelimiter .unit)
    | .sOpt s1 =>
      match peek_token data .unit with
      | .error e => .error e
      | .ok true =>
        match eat_token data .unit with
        | .error e => .error e
        | .ok rest => .ok (.vOpt none, rest)
      | .ok false =>
        match decodeF fuel s1 data with
        | .error e => .error e
        | .ok (v, rest) => .ok (.vOpt (some v), rest)
    | .sSeq s1 =>
      match peek_token data .seq with
      | .error e => .error e
      | .ok true =>
        match eat_token data .seq with
        | .error e => .error e
        | .ok data1 =>
          match decodeSeqElemsF fuel s1 data1 true [] with
          | .error e => .error e
          | .ok (elems, data2) =>
            match peek_token data2 .seq with
            | .error e => .error e
            | .ok true =>
              match eat_token data2 .seq with
              | .error e => .error e
              | .ok rest => .ok (.vSeq elems, rest)
            | .ok false => .error (.ExpectedDelimiter .seq)
      | .ok false => .error (.ExpectedDelimiter .seq)
    | .sMap ks vs =>
      match decodeMapEntriesF fuel ks vs data [] with
      | .error e => .error e
      | .ok (entries, data1) =>
        match peek_token data1 .map with
        | .error e => .error e
        | .ok true =>
          match eat_token data1 .map with
          | .error e => .error e
          | .ok rest => .ok (.vMap entries, rest)
        | .ok false => .error (.ExpectedDelimiter .map)
    | .sEnum variants =>
      match parse_unsigned data 4 with
      | .error e => .error e
      | .ok (idx, data1) =>
        match variants[idx]? with
        | none => .error (.DeserializationError "invalid value: unknown variant index")
        | some .vsUnit => .ok (.vUnitVariant idx, data1)
        | some (.vsNewtype s1) =>
          match decodeF fuel s1 data1 with
          | .error e => .error e
          | .ok (v, rest) => .ok (.vNewtypeVariant idx v, rest)
        | some (.vsTuple s1) =>
          -- `tuple_variant` runs `deserialize_seq`; the wildcard arm is
          -- unreachable (a sequence decode only returns `vSeq`) and exists
          -- for exhaustiveness of the model only.
          match decodeF fuel (.sSeq s1) data1 with
          | .error e => .error e
          | .ok (.vSeq elems, rest) => .ok (.vTupleVariant idx elems, rest)
          | .ok (_, _) => .error (.DeserializationError "model: not a sequence")
        | some (.vsStruct ks vs1) =>
          -- `struct_variant` runs `deserialize_struct` = `deserialize_map`;
          -- the wildcard arm is unreachable for the same reason.
          match decodeF fuel (.sMap ks vs1) data1 with
          | .error e => .error e
          | .ok (.vMap entries, rest) => .ok (.vStructVariant idx entries, rest)
          | .ok (_, _) => .error (.DeserializationError "model: not a map")

/-- Models `SequenceDeserializer::next_element_seed` iterated by a collection
visitor: stop when the next 3 bits read as `Seq`; otherwise require a
`SeqValue` separator unless this is the first element, then decode one
element. -/
def decodeSeqElemsF : Nat → Shape → List Bool → Bool → List Value →
    Except Error (List Value × List Bool)
  | 0, _, _, _, _ => .error (.DeserializationError "model: out of fuel")
  | fuel + 1, s, data, first, acc =>
    match peek_token data .seq with
    | .error e => .error e
    | .ok true => .ok (acc, data)
    | .ok false =>
      match
        (if first then .ok data
         else match peek_token data .seqValue with
         | .error e => .error e
         | .ok true => eat_token data .seqValue
         | .ok false => .error (.ExpectedDelimiter .seqValue) :
          Except Error (List Bool)) with
      | .error e => .error e
      | .ok data1 =>
        match decodeF fuel s data1 with
        | .error e => .error e
        | .ok (v, data2) => decodeSeqElemsF fuel s data2 false (acc ++ [v])

/-- Models the `MapDeserializer` key and value seeds iterated by a map
visitor: stop when the next full byte reads as `Map`; otherwise decode a
key, require `MapKey`, decode a value, require `MapValue`. -/
def decodeMapEntriesF : Nat → Shape → Shape → List Bool → List (Value × Value) →
    Except Error (List (Value × Value) × List Bool)
  | 0, _, _, _, _ => .error (.DeserializationError "model: out of fuel")
  | fuel + 1, ks, vs, data, acc =>
    match peek_token data .map with
    | .error e => .error e
    | .ok true => .ok (acc, data)
    | .ok false =>
      match decodeF fuel ks data with
      | .error e => .error e
      | .ok (k, data1) =>
        match peek_token data1 .mapKey with
        | .error e => .error e
        | .ok true =>
          match eat_token data1 .mapKey with
          | .error e => .error e
          | .ok data2 =>
            match decodeF fuel vs data2 with
            | .error e => .error e
            | .ok (v, data3) =>
              match peek_token data3 .mapValue with
              | .error e => .error e
              | .ok true =>
                match eat_token data3 .mapValue with
                | .error e => .error e
                | .ok data4 => decodeMapEntriesF fuel ks vs data4 (acc ++ [(k, v)])
              | .ok false => .error (.ExpectedDelimiter .mapValue)
        | .ok false => .error (.ExpectedDelimiter .mapKey)

end

/-- Models `from_bytes`: view the input bytes as bits and run the shape-driven
decode; leftover bits are discarded, as in the source.  The source's
loops carry no fuel; `data.length + 1` is ample for every input this file
evaluates, and the theorems below either hold for all fuel or fix a
concrete input on which the fuel is visibly sufficient. -/
def from_bytes (s : Shape) (bytes : List Nat) : Except Error Value :=
  let data := bytesToBits bytes
  match decodeF (data.length + 1) s data with
  | .error e => .error e
  | .ok (v, _) => .ok v

/-! ## Primitive values: encoder output and decoder round trip -/

/-- Values of primitive shape whose payload satisfies the width invariant
of the Rust type it models (`u8` holds values below `2^8`, and so on;
`char` holds Unicode scalar values). -/
def isPrimOk : Value → Bool
  | .vBool _ => true
  | .vU8 n => n < 2 ^ 8
  | .vU16 n => n < 2 ^ 16
  | .vU32 n => n < 2 ^ 32
  | .vU64 n => n < 2 ^ 64
  | .vI8 v => -(2 ^ 7) ≤ v ∧ v < 2 ^ 7
  | .vI16 v => -(2 ^ 15) ≤ v ∧ v < 2 ^ 15
  | .vI32 v => -(2 ^ 31) ≤ v ∧ v < 2 ^ 31
  | .vI64 v => -(2 ^ 63) ≤ v ∧ v < 2 ^ 63
  | .vChar c => c ≤ 0x10FFFF ∧ ¬(0xD800 ≤ c ∧ c ≤ 0xDFFF)
  | .vUnit => true
  | _ => false

/-- The shape of a primitive value (arbitrary on non-primitives). -/
def primShape : Value → Shape
  | .vBool _ => .sBool
  | .vU8 _ => .sU8
  | .vU16 _ => .sU16
  | .vU32 _ => .sU32
  | .vU64 _ => .sU64
  | .vI8 _ => .sI8
  | .vI16 _ => .sI16
  | .vI32 _ => .sI32
  | .vI64 _ => .sI64
  | .vChar _ => .sChar
  | _ => .sUnit

/-- The bits the serializer appends for a primitive value (empty on
non-primitives). -/
def primBits : Value → List Bool
  | .vBool b => [b]
  | .vU8 n => uintToBits 1 n
  | .vU16 n => uintToBits 2 n
  | .vU32 n => uintToBits 4 n
  | .vU64 n => uintToBits 8 n
  | .vI8 v => intToBits 1 v
  | .vI16 v => intToBits 2 v
  | .vI32 v => intToBits 4 v
  | .vI64 v => intToBits 8 v
  | .vChar c => uintToBits 4 c
  | .vUnit => tokenBits .unit
  | _ => []

theorem serialize_prim (acc : List Bool) (v : Value) (h : isPrimOk v = true) :
    serialize acc v = .ok (acc ++ primBits v) := by
  cases v <;> simp_all [serialize, primBits, isPrimOk]

theorem eat_byte_spec (b : Nat) (hb : b < 256) (rest : List Bool) :
    eat_byte (byteToBits b ++ rest) = .ok (b, rest) := by
  have htake : (byteToBits b ++ rest).take 8 = byteToBits b := by
    rw [← byteToBits_length b]; exact List.take_left _ _
  have hdrop : (byteToBits b ++ rest).drop 8 = rest := by
    rw [← byteToBits_length b]; exact List.drop_left _ _
  rw [eat_byte, peek_byte, dePeekNBits, if_neg (by simp), htake, hdrop]
  simp [bitsVal_byteToBits b hb]

theorem eat_bytes_spec (bs : List Nat) (hbs : ∀ b ∈ bs, b < 256) (rest : List Bool) :
    eat_bytes (bytesToBits bs ++ rest) bs.length = .ok (bs, rest) := by
  have hdrop : (bytesToBits bs ++ rest).drop (bs.length * 8) = rest := by
    rw [show bs.length * 8 = (bytesToBits bs).length by simp [Nat.mul_comm]]
    exact List.drop_left _ _
  rw [eat_bytes, if_pos (by simp [Nat.mul_comm]), hdrop,
    bitsToBytesN_bytesToBits bs rest hbs]

theorem parse_unsigned_spec (w n : Nat) (hw : w = 1 ∨ w = 2 ∨ w = 4 ∨ w = 8)
    (hn : n < 256 ^ w) (rest : List Bool) :
    parse_unsigned (uintToBits w n ++ rest) w = .ok (n, rest) := by
  have hlen : (uintToBits w n ++ rest).length = 8 * w + rest.length := by
    simp [uintToBits]
  have hguard : ¬ (uintToBits w n ++ rest).length < w := by omega
  have hbytes : ∀ b ∈ natLEBytes w n, b < 256 := natLEBytes_lt w n
  have heat := eat_bytes_spec (natLEBytes w n) hbytes rest
  rw [natLEBytes_length] at heat
  rcases hw with rfl | rfl | rfl | rfl
  · rw [show uintToBits 1 n = byteToBits (n % 256) ++ [] by
        simp [uintToBits, natLEBytes, bytesToBits],
      List.append_assoc, List.nil_append, parse_unsigned, if_neg (by simp only [List.length_append, byteToBits_length]; omega),
      eat_byte_spec (n % 256) (Nat.mod_lt _ (by norm_num)) rest,
      Nat.mod_eq_of_lt (by simp at hn; exact hn)]
  · rw [parse_unsigned, if_neg hguard, uintToBits, heat]
    simp [bytesToNatLE_natLEBytes_self 2 n hn]
  · rw [parse_unsigned, if_neg hguard, uintToBits, heat]
    simp [bytesToNatLE_natLEBytes_self 4 n hn]
  · rw [parse_unsigned, if_neg hguard, uintToBits, heat]
    simp [bytesToNatLE_natLEBytes_self 8 n hn]

theorem sintOfBytes_natLEBytes (w : Nat) (v : Int)
    (hw : w = 1 ∨ w = 2 ∨ w = 4 ∨ w = 8)
    (hlo : -(2 ^ (8 * w - 1)) ≤ v) (hhi : v < 2 ^ (8 * w - 1)) :
    sintOfBytes w (natLEBytes w ((v % (2 : Int) ^ (8 * w)).toNat)) = v := by
  rcases hw with rfl | rfl | rfl | rfl <;>
    (simp only [sintOfBytes, bytesToNatLE_natLEBytes] at *
     norm_num at *
     split_ifs <;> omega)

theorem parse_signed_spec (w : Nat) (v : Int) (hw : w = 1 ∨ w = 2 ∨ w = 4 ∨ w = 8)
    (hlo : -(2 ^ (8 * w - 1)) ≤ v) (hhi : v < 2 ^ (8 * w - 1)) (rest : List Bool) :
    parse_signed (intToBits w v ++ rest) w = .ok (v, rest) := by
  have hval := sintOfBytes_natLEBytes w v hw hlo hhi
  have hn : (v % (2 : Int) ^ (8 * w)).toNat < 256 ^ w := by
    have h1 : (0 : Int) ≤ v % (2 : Int) ^ (8 * w) :=
      Int.emod_nonneg v (by positivity)
    have h2 : v % (2 : Int) ^ (8 * w) < (2 : Int) ^ (8 * w) :=
      Int.emod_lt_of_pos v (by positivity)
    rcases hw with rfl | rfl | rfl | rfl <;> norm_num at * <;> omega
  set n := (v % (2 : Int) ^ (8 * w)).toNat with hn_def
  have hbytes : ∀ b ∈ natLEBytes w n, b < 256 := natLEBytes_lt w n
  have heat := eat_bytes_spec (natLEBytes w n) hbytes rest
  rw [natLEBytes_length] at heat
  have hguard : ¬ (uintToBits w n ++ rest).length < w := by
    simp only [List.length_append, uintToBits, bytesToBits_length, natLEBytes_length]
    rcases hw with rfl | rfl | rfl | rfl <;> omega
  rcases hw with rfl | rfl | rfl | rfl
  · have hn1 : n % 256 = n := Nat.mod_eq_of_lt (by simpa using hn)
    rw [intToBits, show uintToBits 1 n = byteToBits (n % 256) ++ [] by
        simp [uintToBits, natLEBytes, bytesToBits],
      List.append_assoc, List.nil_append, parse_signed,
      if_neg (by simp only [List.length_append, byteToBits_length]; omega),
      eat_byte_spec (n % 256) (Nat.mod_lt _ (by norm_num)) rest]
    simp only [hn1]
    rw [show sintOfBytes 1 [n] = sintOfBytes 1 (natLEBytes 1 n) by
        simp [natLEBytes, hn1], hval]
  · rw [intToBits, parse_signed, if_neg hguard, uintToBits, heat]
    simp only [hval]
  · rw [intToBits, parse_signed, if_neg hguard, uintToBits, heat]
    simp only [hval]
  · rw [intToBits, parse_signed, if_neg hguard, uintToBits, heat]
    simp only [hval]

theorem parse_char_spec (c : Nat) (hc1 : c ≤ 0x10FFFF)
    (hc2 : ¬(0xD800 ≤ c ∧ c ≤ 0xDFFF)) (rest : List Bool) :
    parse_char (uintToBits 4 c ++ rest) = .ok (c, rest) := by
  rw [parse_char,
    parse_unsigned_spec 4 c (by norm_num) (by norm_num; omega) rest]
  simp only []
  rw [if_neg (by omega)]

theorem parse_bool_spec (b : Bool) (rest : List Bool) :
    parse_bool (b :: rest) = .ok (b, rest) := by
  simp [parse_bool, eat_bit, dePeekNBits]

theorem peek_token_here (d : Delimiter) (rest : List Bool)
    (h : (tokenBits d).length = tokenWidthDe d) :
    peek_token (tokenBits d ++ rest) d = .ok true := by
  have htake : (tokenBits d ++ rest).take (tokenWidthDe d) = tokenBits d := by
    rw [← h]; exact List.take_left _ _
  rw [peek_token, dePeekNBits, if_neg (by simp [← h]), htake]
  simp [bitsVal_tokenBits]

theorem eat_token_here (d : Delimiter) (rest : List Bool)
    (h : (tokenBits d).length = tokenWidthDe d) :
    eat_token (tokenBits d ++ rest) d = .ok rest := by
  have hdrop : (tokenBits d ++ rest).drop (tokenWidthDe d) = rest := by
    rw [← h]; exact List.drop_left _ _
  rw [eat_token, if_neg (by simp [← h]), hdrop]

theorem byteToBits_bitsVal (t : List Bool) (ht : t.length = 8) :
    byteToBits (bitsVal t) = t := by
  rcases t with _ | ⟨b0, t⟩
  · simp only [List.length_nil] at ht; omega
  rcases t with _ | ⟨b1, t⟩
  · simp only [List.length_cons, List.length_nil] at ht; omega
  rcases t with _ | ⟨b2, t⟩
  · simp only [List.length_cons, List.length_nil] at ht; omega
  rcases t with _ | ⟨b3, t⟩
  · simp only [List.length_cons, List.length_nil] at ht; omega
  rcases t with _ | ⟨b4, t⟩
  · simp only [List.length_cons, List.length_nil] at ht; omega
  rcases t with _ | ⟨b5, t⟩
  · simp only [List.length_cons, List.length_nil] at ht; omega
  rcases t with _ | ⟨b6, t⟩
  · simp only [List.length_cons, List.length_nil] at ht; omega
  rcases t with _ | ⟨b7, t⟩
  · simp only [List.length_cons, List.length_nil] at ht; omega
  rcases t with _ | ⟨b8, t⟩
  · revert b0 b1 b2 b3 b4 b5 b6 b7; decide
  · simp only [List.length_cons, List.length_nil] at ht; omega

theorem bytesToBits_bitsToBytesN (k : Nat) (l : List Bool) (hl : l.length = 8 * k) :
    bytesToBits (bitsToBytesN k l) = l := by
  induction k generalizing l with
  | zero =>
    have : l = [] := List.eq_nil_of_length_eq_zero (by omega)
    subst this; rfl
  | succ k ih =>
    have htake : (l.take 8).length = 8 := by simp; omega
    rw [bitsToBytesN, bytesToBits_cons, byteToBits_bitsVal _ htake,
      ih (l.drop 8) (by simp; omega), List.take_append_drop]

theorem padToByte_dvd (l : List Bool) : 8 ∣ (padToByte l).length := by
  simp only [padToByte, List.length_append, List.length_replicate]
  omega

theorem bytesToBits_bitsToBytes_pad (l : List Bool) :
    bytesToBits (bitsToBytes (padToByte l)) = padToByte l := by
  obtain ⟨k, hk⟩ := padToByte_dvd l
  rw [bitsToBytes, hk, show (8 * k + 7) / 8 = k by omega,
    bytesToBits_bitsToBytesN k _ hk]

theorem decode_prim (fuel : Nat) (v : Value) (h : isPrimOk v = true) (rest : List Bool) :
    decodeF (fuel + 1) (primShape v) (primBits v ++ rest) = .ok (v, rest) := by
  cases v with
  | vBool b =>
    simp [primShape, primBits, decodeF, parse_bool_spec]
  | vU8 n =>
    simp only [isPrimOk, decide_eq_true_eq] at h
    simp [primShape, primBits, decodeF,
      parse_unsigned_spec 1 n (by norm_num) (by norm_num; omega) rest]
  | vU16 n =>
    simp only [isPrimOk, decide_eq_true_eq] at h
    simp [primShape, primBits, decodeF,
      parse_unsigned_spec 2 n (by norm_num) (by norm_num; omega) rest]
  | vU32 n =>
    simp only [isPrimOk, decide_eq_true_eq] at h
    simp [primShape, primBits, decodeF,
      parse_unsigned_spec 4 n (by norm_num) (by norm_num; omega) rest]
  | vU64 n =>
    simp only [isPrimOk, decide_eq_true_eq] at h
    simp [primShape, primBits, decodeF,
      parse_unsigned_spec 8 n (by norm_num) (by norm_num; omega) rest]
  | vI8 w =>
    simp only [isPrimOk, Bool.decide_and, Bool.and_eq_true, decide_eq_true_eq] at h
    simp [primShape, primBits, decodeF,
      parse_signed_spec 1 w (by norm_num) (by norm_num; omega) (by norm_num; omega) rest]
  | vI16 w =>
    simp only [isPrimOk, Bool.decide_and, Bool.and_eq_true, decide_eq_true_eq] at h
    simp [primShape, primBits, decodeF,
      parse_signed_spec 2 w (by norm_num) (by norm_num; omega) (by norm_num; omega) rest]
  | vI32 w =>
    simp only [isPrimOk, Bool.decide_and, Bool.and_eq_true, decide_eq_true_eq] at h
    simp [primShape, primBits, decodeF,
      parse_signed_spec 4 w (by norm_num) (by norm_num; omega) (by norm_num; omega) rest]
  | vI64 w =>
    simp only [isPrimOk, Bool.decide_and, Bool.and_eq_true, decide_eq_true_eq] at h
    simp [primShape, primBits, decodeF,
      parse_signed_spec 8 w (by norm_num) (by norm_num; omega) (by norm_num; omega) rest]
  | vChar c =>
    simp only [isPrimOk, Bool.decide_and, Bool.and_eq_true, decide_eq_true_eq,
      Bool.decide_coe, Bool.not_eq_true'] at h
    simp [primShape, primBits, decodeF,
      parse_char_spec c (by omega) (by omega) rest]
  | vUnit =>
    simp [primShape, primBits, decodeF, peek_token_here .unit rest rfl,
      eat_token_here .unit rest rfl]
  | vStr bs => simp [isPrimOk] at h
  | vBytes bs => simp [isPrimOk] at h
  | vOpt o => simp [isPrimOk] at h
  | vSeq l => simp [isPrimOk] at h
  | vMap l => simp [isPrimOk] at h
  | vUnitVariant i => simp [isPrimOk] at h
  | vNewtypeVariant i w => simp [isPrimOk] at h
  | vTupleVariant i l => simp [isPrimOk] at h
  | vStructVariant i l => simp [isPrimOk] at h

/-! ## The claims -/

/-- C1, counterexample: the round-trip claim fails as stated.  The
three-element bit encoding of the sequence `[3u8]` starts, after the `Seq`
open token, with the byte `3`, whose low three bits coincide with the `Seq`
token pattern; the decoder therefore reports the sequence as already
finished and `from_bytes` silently returns the *empty* sequence, not an
equal value and not an error. -/
theorem c1_counterexample :
    to_bytes (.vSeq [.vU8 3]) = .ok [27, 24] ∧
    from_bytes (.sSeq .sU8) [27, 24] = .ok (.vSeq []) ∧
    Value.vSeq [] ≠ Value.vSeq [.vU8 3] :=
  ⟨rfl, rfl, by simp⟩

/-- C1 (amended): for every value of *primitive* shape — bool, the fixed
width unsigned and signed integers within their width bounds, char on a
Unicode scalar value, and unit — `from_bytes` at that value's shape on the
buffer returned by `to_bytes` succeeds and returns the value itself.  (For
strings, byte buffers, options, sequences, maps and enum payloads the
round trip fails in general, as the counterexample shows.) -/
theorem c1_roundtrip_primitive (v : Value) (h : isPrimOk v = true) :
    ∃ bs, to_bytes v = .ok bs ∧ from_bytes (primShape v) bs = .ok v := by
  refine ⟨bitsToBytes (padToByte (primBits v)), ?_, ?_⟩
  · rw [to_bytes, serialize_prim [] v h, List.nil_append]
  · have hdata : bytesToBits (bitsToBytes (padToByte (primBits v)))
        = primBits v ++ List.replicate ((8 - (primBits v).length % 8) % 8) false := by
      rw [bytesToBits_bitsToBytes_pad, padToByte]
    simp only [from_bytes, hdata]
    rw [decode_prim _ v h _]

/-- C1 witness: the amended round trip evaluated at the char `'a'`. -/
theorem c1_roundtrip_primitive_witness :
    isPrimOk (.vChar 97) = true ∧
    ∃ bs, to_bytes (.vChar 97) = .ok bs ∧
      from_bytes (primShape (.vChar 97)) bs = .ok (.vChar 97) :=
  ⟨by decide, c1_roundtrip_primitive (.vChar 97) (by decide)⟩

/-- C2: the claim states truncated input yields `UnexpectedEnd`/
`ExpectedToken`, never a panic.  The code's guard in `parse_unsigned`
compares the remaining *bit* count against the *byte* width
(`self.data.len() < length`), so a one-byte buffer passes the guard for a
four-byte `u32` and `eat_bytes` then slices 32 bits out of 8 — a panic.
`[42]` is the valid encoding `[42, 0, 0, 0]` of `42u32` truncated to one
byte. -/
theorem c2_truncated_u32_panics :
    from_bytes .sU32 [42, 0, 0, 0] = .ok (.vU32 42) ∧
    from_bytes .sU32 [42] =
      .error (.panicked "range end index out of range for bitslice") :=
  ⟨rfl, rfl⟩

/-- C3, counterexample: `eat_token` succeeds on bits that do not match the
token's pattern.  On the all-zero byte, `peek_token` for `Unit` answers
`false`, yet `eat_token` returns `Ok` and advances the cursor by 3 bits. -/
theorem c3_counterexample :
    peek_token (byteToBits 0) .unit = .ok false ∧
    eat_token (byteToBits 0) .unit = .ok [false, false, false, false, false] :=
  ⟨rfl, rfl⟩

/-- C3 (amended): `eat_token` never inspects the bits at the cursor: it
unconditionally consumes the token's bit width (8 bits for `String`,
`Byte` and `Map`, 3 bits otherwise) whenever that many bits remain, and
fails with `UnexpectedEOF` — not an expected-token error — when fewer
remain.  Pattern checking is the caller's job, via `peek_token`. -/
theorem c3_eat_token_unconditional (data : List Bool) (d : Delimiter) :
    (tokenWidthDe d ≤ data.length →
      eat_token data d = .ok (data.drop (tokenWidthDe d))) ∧
    (data.length < tokenWidthDe d → eat_token data d = .error .UnexpectedEOF) :=
  ⟨fun h => by rw [eat_token, if_neg (Nat.not_lt.2 h)],
   fun h => by rw [eat_token, if_pos h]⟩

/-- C3 witness: both branches of the amended statement at concrete
buffers. -/
theorem c3_eat_token_unconditional_witness :
    eat_token (byteToBits 0) .unit = .ok ((byteToBits 0).drop 3) ∧
    eat_token [] .string = .error .UnexpectedEOF :=
  ⟨(c3_eat_token_unconditional (byteToBits 0) .unit).1 (by decide),
   (c3_eat_token_unconditional [] .string).2 (by decide)⟩

/-- C8: the claim states an invalid scalar value yields an
`InvalidCharCode`-style error.  The code (`parse_char`) instead calls
`char::from_u32(value).unwrap()`, which panics: on the four-byte little
endian encoding of the surrogate `0xD800` the decode panics, while a
valid scalar decodes normally. -/
theorem c8_invalid_char_panics :
    from_bytes .sChar [97, 0, 0, 0] = .ok (.vChar 97) ∧
    from_bytes .sChar [0, 216, 0, 0] =
      .error (.panicked "called Option::unwrap on a None value") :=
  ⟨rfl, rfl⟩

/-- C9: any request to decode into an untyped value is rejected with the
`UnsupportedCall` error: `deserialize_any` and `deserialize_ignored_any`
return the error on every input, without reading any bits. -/
theorem c9_unsupported_any (data : List Bool) :
    deserialize_any data = .error (.UnsupportedCall "deserialize_any") ∧
    deserialize_ignored_any data =
      .error (.UnsupportedCall "deserialize_ignored_any") :=
  ⟨rfl, rfl⟩

/-- C7, counterexample: decoding a bool does not consume a byte.  On the
one-byte buffer `[1]` (the encoding of `true`), `parse_bool` consumes a
single bit and leaves the 7 padding bits unconsumed. -/
theorem c7_counterexample :
    to_bytes (.vBool true) = .ok [1] ∧
    parse_bool (bytesToBits [1]) = .ok (true, List.replicate 7 false) ∧
    List.replicate 7 false ≠ ([] : List Bool) :=
  ⟨rfl, rfl, by decide⟩

/-- C7 (amended): `to_bytes` on a bool does produce exactly one byte of
value 0 or 1 — the serializer pushes a single *bit* and `into_vec` pads
the remaining 7 bits with zeros — but decoding consumes exactly one bit,
not one byte; `from_bytes` still returns the right value because it
ignores leftover bits. -/
theorem c7_bool_one_bit (b : Bool) :
    to_bytes (.vBool b) = .ok [if b then 1 else 0] ∧
    parse_bool (bytesToBits [if b then 1 else 0]) = .ok (b, List.replicate 7 false) ∧
    from_bytes .sBool [if b then 1 else 0] = .ok (.vBool b) := by
  cases b <;> exact ⟨rfl, rfl, rfl⟩

/-- The bits the serializer emits for a list of map entries whose keys and
values are primitive: for *every* entry, the key's bits, the `MapKey`
token, the value's bits, the `MapValue` token. -/
def mapFrameBits : List (Value × Value) → List Bool
  | [] => []
  | (k, v) :: rest =>
    primBits k ++ tokenBits .mapKey ++ primBits v ++ tokenBits .mapValue ++
      mapFrameBits rest

theorem serializeMapEntries_frame (entries : List (Value × Value)) (acc : List Bool)
    (h : ∀ e ∈ entries, isPrimOk e.1 = true ∧ isPrimOk e.2 = true) :
    serializeMapEntries acc entries = .ok (acc ++ mapFrameBits entries) := by
  induction entries generalizing acc with
  | nil => simp [serializeMapEntries, mapFrameBits]
  | cons e rest ih =>
    obtain ⟨k, v⟩ := e
    have hk : isPrimOk k = true := (h (k, v) (List.mem_cons_self _ _)).1
    have hv : isPrimOk v = true := (h (k, v) (List.mem_cons_self _ _)).2
    have hrest : ∀ e ∈ rest, isPrimOk e.1 = true ∧ isPrimOk e.2 = true :=
      fun e he => h e (List.mem_cons_of_mem _ he)
    have ih' : ∀ a, serializeMapEntries a rest = .ok (a ++ mapFrameBits rest) :=
      fun a => ih a hrest
    have hsk : ∀ a, serialize a k = .ok (a ++ primBits k) :=
      fun a => serialize_prim a k hk
    have hsv : ∀ a, serialize a v = .ok (a ++ primBits v) :=
      fun a => serialize_prim a v hv
    simp [serializeMapEntries, hsk, hsv, ih', mapFrameBits, List.append_assoc]

/-- C4, counterexample: the encoding of a map does not begin with a
`MapStart` token.  For the one-entry map `{1u8: 2u8}` the serializer's
output starts with the key byte `1` — its first three bits are `100`
(value 1), not the `Map` token pattern `101` — and contains no start
token at all: the single `Map` token comes last. -/
theorem c4_counterexample :
    serialize [] (.vMap [(.vU8 1, .vU8 2)]) =
      .ok (byteToBits 1 ++ (tokenBits .mapKey ++ (byteToBits 2 ++
        (tokenBits .mapValue ++ tokenBits .map)))) ∧
    (byteToBits 1 ++ (tokenBits .mapKey ++ (byteToBits 2 ++
        (tokenBits .mapValue ++ tokenBits .map)))).take 3 ≠ tokenBits .map :=
  ⟨rfl, by decide⟩

/-- C4 (amended): encoding a map (and a struct, which the source encodes
through the same `SerializeMap`-style methods) emits **no** start token
and no conditional separators: for each entry, in order, it emits the
key's encoding, a `MapKey` token, the value's encoding and a `MapValue`
token — after *every* entry including the last — and finishes with a
single 3-bit `Map` token.  Decoding consumes this framing back, testing
for the end before each entry by peeking a full byte for the `Map`
value and finally consuming the `Map` token as 8 bits (token plus
padding), as the concrete one-entry decode shows. -/
theorem c4_map_framing :
    (∀ acc entries, (∀ e ∈ entries, isPrimOk e.1 = true ∧ isPrimOk e.2 = true) →
      serialize acc (.vMap entries) =
        .ok (acc ++ mapFrameBits entries ++ tokenBits .map)) ∧
    to_bytes (.vMap [(.vU8 1, .vU8 2)]) = .ok [1, 22, 120, 1] ∧
    from_bytes (.sMap .sU8 .sU8) [1, 22, 120, 1] = .ok (.vMap [(.vU8 1, .vU8 2)]) := by
  refine ⟨fun acc entries h => ?_, rfl, rfl⟩
  rw [serialize, serializeMapEntries_frame entries acc h]

theorem uintToBits_one (a : Nat) (ha : a < 256) : uintToBits 1 a = byteToBits a := by
  simp [uintToBits, natLEBytes, bytesToBits, Nat.mod_eq_of_lt ha]

theorem bitsVal_drop5 : ∀ a < 256, bitsVal ((byteToBits a).drop 5) = a >>> 5 := by
  decide

/-- What the encoder's separator test sees after a byte has been appended:
the last three bits of the buffer are the byte's top three bits. -/
theorem serPeekToken_seq_after_byte (pre : List Bool) (a : Nat) (ha : a < 256) :
    serPeekToken (pre ++ byteToBits a) .seq = .ok (a >>> 5 == 3) := by
  have hlen : (pre ++ byteToBits a).length = pre.length + 8 := by simp
  have hdrop : (pre ++ byteToBits a).drop ((pre ++ byteToBits a).length - 3)
      = (byteToBits a).drop 5 := by
    rw [hlen, show pre.length + 8 - 3 = pre.length + 5 by omega, List.drop_append]
  have hw : serPeekToken (pre ++ byteToBits a) .seq
      = match serPeekNBits (pre ++ byteToBits a) 3 with
        | .error e => .error e
        | .ok bits => .ok (bitsVal bits == tokenValue .seq) := rfl
  rw [hw, serPeekNBits, if_neg (by omega), hdrop]
  simp [bitsVal_drop5 a ha, tokenValue]

/-- C6, counterexample: separator placement depends on the element bytes.
In the three-element sequence `[96u8, 5u8, 6u8]`, the byte `96` ends in the
bits `011` — the `Seq` token pattern — so the encoder omits the separator
before the second element and emits only *one* `SeqValue` token, not the
two separators the claim requires for every 3-element sequence. -/
theorem c6_counterexample :
    serialize [] (.vSeq [.vU8 96, .vU8 5, .vU8 6]) =
      .ok (tokenBits .seq ++ byteToBits 96 ++ byteToBits 5 ++
        tokenBits .seqValue ++ byteToBits 6 ++ tokenBits .seq) ∧
    tokenBits .seq ++ byteToBits 96 ++ byteToBits 5 ++
        tokenBits .seqValue ++ byteToBits 6 ++ tokenBits .seq ≠
      tokenBits .seq ++ byteToBits 96 ++ tokenBits .seqValue ++ byteToBits 5 ++
        tokenBits .seqValue ++ byteToBits 6 ++ tokenBits .seq := by
  constructor
  · rfl
  · decide

theorem serializeSeqElems_cons_u8_first (acc : List Bool) (x : Nat) (hx : x < 256)
    (hpeek : serPeekToken acc .seq = .ok true) (rest : List Value) :
    serializeSeqElems acc (.vU8 x :: rest) =
      serializeSeqElems (acc ++ byteToBits x) rest := by
  have hser : serialize acc (.vU8 x) = .ok (acc ++ byteToBits x) := by
    rw [serialize, uintToBits_one x hx]
  rw [serializeSeqElems, hpeek]
  simp [hser]

theorem serializeSeqElems_cons_u8_sep (acc : List Bool) (x : Nat) (hx : x < 256)
    (hpeek : serPeekToken acc .seq = .ok false) (rest : List Value) :
    serializeSeqElems acc (.vU8 x :: rest) =
      serializeSeqElems (acc ++ tokenBits .seqValue ++ byteToBits x) rest := by
  have hser : serialize (acc ++ tokenBits .seqValue) (.vU8 x)
      = .ok (acc ++ tokenBits .seqValue ++ byteToBits x) := by
    rw [serialize, uintToBits_one x hx]
  rw [serializeSeqElems, hpeek]
  simp [hser]

/-- C6 (amended): the encoder inserts a `SeqValue` separator before an
element exactly when the buffer does not currently end in the `Seq` token
bit pattern, i.e. when the previous element's last byte does not have
`011` as its top three bits.  For a 3-element `u8` sequence whose first
two element bytes are outside `96..=127` (top three bits ≠ 3), exactly 2
separators are emitted: none before the first element, one between each
adjacent pair.  (The counterexample shows the "regardless of the element
values" part of the claim fails for bytes in `96..=127`.) -/
theorem c6_seq_two_separators (a b c : Nat) (ha : a < 256) (hb : b < 256)
    (hc : c < 256) (hsa : a >>> 5 ≠ 3) (hsb : b >>> 5 ≠ 3) :
    serialize [] (.vSeq [.vU8 a, .vU8 b, .vU8 c]) =
      .ok (tokenBits .seq ++ byteToBits a ++ tokenBits .seqValue ++ byteToBits b ++
        tokenBits .seqValue ++ byteToBits c ++ tokenBits .seq) := by
  have hpa : serPeekToken (tokenBits .seq ++ byteToBits a) .seq = .ok false := by
    rw [serPeekToken_seq_after_byte (tokenBits .seq) a ha]
    simp [beq_eq_false_iff_ne, hsa]
  have hpb : serPeekToken
      (tokenBits .seq ++ byteToBits a ++ tokenBits .seqValue ++ byteToBits b) .seq
      = .ok false := by
    rw [serPeekToken_seq_after_byte _ b hb]
    simp [beq_eq_false_iff_ne, hsb]
  have hnil : ∀ ac : List Bool, serializeSeqElems ac [] = .ok ac := fun _ => rfl
  rw [serialize, List.nil_append,
    serializeSeqElems_cons_u8_first (tokenBits .seq) a ha rfl,
    serializeSeqElems_cons_u8_sep _ b hb hpa,
    serializeSeqElems_cons_u8_sep _ c hc hpb, hnil]

/-- C6 witness: the amended separator placement at the sequence
`[1u8, 2u8, 3u8]`. -/
theorem c6_seq_two_separators_witness :
    serialize [] (.vSeq [.vU8 1, .vU8 2, .vU8 3]) =
      .ok (tokenBits .seq ++ byteToBits 1 ++ tokenBits .seqValue ++ byteToBits 2 ++
        tokenBits .seqValue ++ byteToBits 3 ++ tokenBits .seq) :=
  c6_seq_two_separators 1 2 3 (by decide) (by decide) (by decide)
    (by decide) (by decide)

/-- C4 witness: the amended framing at the one-entry map `{1u8: 2u8}`. -/
theorem c4_map_framing_witness :
    serialize [] (.vMap [(.vU8 1, .vU8 2)]) =
      .ok ([] ++ mapFrameBits [(.vU8 1, .vU8 2)] ++ tokenBits .map) :=
  c4_map_framing.1 [] [(.vU8 1, .vU8 2)] (by decide)

@[simp] theorem uintToBits_length (w n : Nat) : (uintToBits w n).length = 8 * w := by
  simp [uintToBits]

theorem padToByte_of_dvd (l : List Bool) (h : 8 ∣ l.length) : padToByte l = l := by
  obtain ⟨k, hk⟩ := h
  simp [padToByte, hk, Nat.mul_mod_right]

theorem decodeF_enum_unit (fuel i : Nat) (hi : i < 2 ^ 32) (vars : List VariantShape)
    (hv : vars[i]? = some .vsUnit) (rest : List Bool) :
    decodeF (fuel + 1) (.sEnum vars) (uintToBits 4 i ++ rest) =
      .ok (.vUnitVariant i, rest) := by
  simp [decodeF, parse_unsigned_spec 4 i (by norm_num) (by norm_num; omega) rest, hv]

theorem decodeF_enum_newtype (fuel i : Nat) (hi : i < 2 ^ 32)
    (vars : List VariantShape) (p : Value) (hp : isPrimOk p = true)
    (hv : vars[i]? = some (.vsNewtype (primShape p))) (rest : List Bool) :
    decodeF (fuel + 1 + 1) (.sEnum vars) (uintToBits 4 i ++ (primBits p ++ rest)) =
      .ok (.vNewtypeVariant i p, rest) := by
  have hinner := decode_prim fuel p hp rest
  rw [decodeF]
  simp only [parse_unsigned_spec 4 i (by norm_num) (by norm_num; omega)
    (primBits p ++ rest), hv, hinner]

/-- C5, counterexample: there is no `EnumMarker` token.  The encoding of
the unit variant with ordinal 7 is exactly the 32-bit little-endian
index — nothing precedes it — while every token of the vocabulary is at
least 3 bits, so a marker-then-index encoding would be at least 35 bits
long. -/
theorem c5_counterexample :
    serialize [] (.vUnitVariant 7) = .ok (uintToBits 4 7) ∧
    (uintToBits 4 7).length = 32 ∧
    ∀ d : Delimiter, 3 ≤ (tokenBits d).length := by
  refine ⟨rfl, by decide, ?_⟩
  intro d
  cases d <;> decide

mutual

/-- The serializer only appends: a successful `serialize` call returns the
incoming buffer extended by some suffix. -/
theorem serialize_extend (v : Value) (acc out : List Bool)
    (h : serialize acc v = .ok out) : ∃ d, out = acc ++ d := by
  cases v with
  | vBool b => simp [serialize] at h; exact ⟨_, h.symm⟩
  | vU8 n => simp [serialize] at h; exact ⟨_, h.symm⟩
  | vU16 n => simp [serialize] at h; exact ⟨_, h.symm⟩
  | vU32 n => simp [serialize] at h; exact ⟨_, h.symm⟩
  | vU64 n => simp [serialize] at h; exact ⟨_, h.symm⟩
  | vI8 w => simp [serialize] at h; exact ⟨_, h.symm⟩
  | vI16 w => simp [serialize] at h; exact ⟨_, h.symm⟩
  | vI32 w => simp [serialize] at h; exact ⟨_, h.symm⟩
  | vI64 w => simp [serialize] at h; exact ⟨_, h.symm⟩
  | vChar c => simp [serialize] at h; exact ⟨_, h.symm⟩
  | vUnit => simp [serialize] at h; exact ⟨_, h.symm⟩
  | vStr bs => simp [serialize] at h; exact ⟨_, h.symm⟩
  | vBytes bs => simp [serialize] at h; exact ⟨_, h.symm⟩
  | vUnitVariant i => simp [serialize] at h; exact ⟨_, h.symm⟩
  | vOpt o =>
    cases o with
    | none => simp [serialize] at h; exact ⟨_, h.symm⟩
    | some v1 =>
      rw [serialize] at h
      exact serialize_extend v1 acc out h
  | vNewtypeVariant i v1 =>
    rw [serialize] at h
    obtain ⟨d, hd⟩ := serialize_extend v1 (acc ++ uintToBits 4 i) out h
    exact ⟨uintToBits 4 i ++ d, by simp [hd, List.append_assoc]⟩
  | vSeq l =>
    rw [serialize] at h
    cases hm : serializeSeqElems (acc ++ tokenBits .seq) l with
    | error e => rw [hm] at h; simp at h
    | ok acc1 =>
      rw [hm] at h
      simp at h
      obtain ⟨d, hd⟩ := serializeSeqElems_extend l (acc ++ tokenBits .seq) acc1 hm
      exact ⟨tokenBits .seq ++ d ++ tokenBits .seq, by
        simp [← h, hd, List.append_assoc]⟩
  | vMap l =>
    rw [serialize] at h
    cases hm : serializeMapEntries acc l with
    | error e => rw [hm] at h; simp at h
    | ok acc1 =>
      rw [hm] at h
      simp at h
      obtain ⟨d, hd⟩ := serializeMapEntries_extend l acc acc1 hm
      exact ⟨d ++ tokenBits .map, by simp [← h, hd, List.append_assoc]⟩
  | vTupleVariant i l =>
    rw [serialize] at h
    cases hm : serializeTupleVariantElems (acc ++ uintToBits 4 i ++ tokenBits .seq) l with
    | error e => rw [hm] at h; simp at h
    | ok acc1 =>
      rw [hm] at h
      simp at h
      obtain ⟨d, hd⟩ :=
        serializeTupleVariantElems_extend l (acc ++ uintToBits 4 i ++ tokenBits .seq) acc1 hm
      exact ⟨uintToBits 4 i ++ tokenBits .seq ++ d ++ tokenBits .seq, by
        simp [← h, hd, List.append_assoc]⟩
  | vStructVariant i l =>
    rw [serialize] at h
    cases hm : serializeMapEntries (acc ++ uintToBits 4 i) l with
    | error e => rw [hm] at h; simp at h
    | ok acc1 =>
      rw [hm] at h
      simp at h
      obtain ⟨d, hd⟩ := serializeMapEntries_extend l (acc ++ uintToBits 4 i) acc1 hm
      exact ⟨uintToBits 4 i ++ d ++ tokenBits .map, by
        simp [← h, hd, List.append_assoc]⟩

/-- Sequence-element serialization only appends. -/
theorem serializeSeqElems_extend (l : List Value) (acc out : List Bool)
    (h : serializeSeqElems acc l = .ok out) : ∃ d, out = acc ++ d := by
  cases l with
  | nil => simp [serializeSeqElems] at h; exact ⟨[], by simp [h]⟩
  | cons v rest =>
    rw [serializeSeqElems] at h
    cases hp : serPeekToken acc .seq with
    | error e => rw [hp] at h; simp at h
    | ok t =>
      rw [hp] at h
      cases t with
      | true =>
        simp at h
        cases hs : serialize acc v with
        | error e => rw [hs] at h; simp at h
        | ok acc1 =>
          rw [hs] at h
          simp at h
          obtain ⟨d1, hd1⟩ := serialize_extend v _ acc1 hs
          obtain ⟨d2, hd2⟩ := serializeSeqElems_extend rest acc1 out h
          exact ⟨d1 ++ d2, by simp [hd2, hd1, List.append_assoc]⟩
      | false =>
        simp at h
        cases hs : serialize (acc ++ tokenBits Delimiter.seqValue) v with
        | error e => rw [hs] at h; simp at h
        | ok acc1 =>
          rw [hs] at h
          simp at h
          obtain ⟨d1, hd1⟩ := serialize_extend v _ acc1 hs
          obtain ⟨d2, hd2⟩ := serializeSeqElems_extend rest acc1 out h
          exact ⟨tokenBits .seqValue ++ d1 ++ d2, by
            simp [hd2, hd1, List.append_assoc]⟩

/-- Map-entry serialization only appends. -/
theorem serializeMapEntries_extend (l : List (Value × Value)) (acc out : List Bool)
    (h : serializeMapEntries acc l = .ok out) : ∃ d, out = acc ++ d := by
  cases l with
  | nil => simp [serializeMapEntries] at h; exact ⟨[], by simp [h]⟩
  | cons e rest =>
    obtain ⟨k, v⟩ := e
    rw [serializeMapEntries] at h
    cases hk : serialize acc k with
    | error e => rw [hk] at h; simp at h
    | ok acc1 =>
      rw [hk] at h
      simp at h
      cases hv : serialize (acc1 ++ tokenBits Delimiter.mapKey) v with
      | error e => rw [hv] at h; simp at h
      | ok acc2 =>
        rw [hv] at h
        simp at h
        obtain ⟨d1, hd1⟩ := serialize_extend k acc acc1 hk
        obtain ⟨d2, hd2⟩ := serialize_extend v _ acc2 hv
        obtain ⟨d3, hd3⟩ := serializeMapEntries_extend rest _ out h
        exact ⟨d1 ++ tokenBits .mapKey ++ d2 ++ tokenBits .mapValue ++ d3, by
          simp [hd3, hd2, hd1, List.append_assoc]⟩

/-- Tuple-variant field serialization only appends. -/
theorem serializeTupleVariantElems_extend (l : List Value) (acc out : List Bool)
    (h : serializeTupleVariantElems acc l = .ok out) : ∃ d, out = acc ++ d := by
  cases l with
  | nil => simp [serializeTupleVariantElems] at h; exact ⟨[], by simp [h]⟩
  | cons v rest =>
    rw [serializeTupleVariantElems] at h
    cases hp : serPeekTokenBefore acc 32 with
    | error e => rw [hp] at h; simp at h
    | ok t =>
      rw [hp] at h
      cases htv : t == tokenValue Delimiter.seq with
      | true =>
        simp [htv] at h
        cases hs : serialize acc v with
        | error e => rw [hs] at h; simp at h
        | ok acc1 =>
          rw [hs] at h
          simp at h
          obtain ⟨d1, hd1⟩ := serialize_extend v _ acc1 hs
          obtain ⟨d2, hd2⟩ := serializeTupleVariantElems_extend rest acc1 out h
          exact ⟨d1 ++ d2, by simp [hd2, hd1, List.append_assoc]⟩
      | false =>
        simp [htv] at h
        cases hs : serialize (acc ++ tokenBits Delimiter.seqValue) v with
        | error e => rw [hs] at h; simp at h
        | ok acc1 =>
          rw [hs] at h
          simp at h
          obtain ⟨d1, hd1⟩ := serialize_extend v _ acc1 hs
          obtain ⟨d2, hd2⟩ := serializeTupleVariantElems_extend rest acc1 out h
          exact ⟨tokenBits .seqValue ++ d1 ++ d2, by
            simp [hd2, hd1, List.append_assoc]⟩

end

/-- C5 (amended): enum variants of every kind are encoded with **no**
marker token: the encoding begins directly with the variant's ordinal
index as a 4-byte little-endian `u32`, followed by the payload according
to the variant kind — nothing for a unit variant, the value's own
encoding for a newtype variant, and for tuple and struct variants the
sequence- or map-style payload, which likewise comes right after the index
(stated below as: any successful tuple- or struct-variant encoding is the
buffer, then the index, then some payload suffix).  Decoding symmetrically
reads no marker: it starts by parsing the `u32` index, as the unit- and
primitive-newtype round trips and the concrete tuple- and struct-variant
round trips show. -/
theorem c5_enum_index_no_marker :
    (∀ acc i, serialize acc (.vUnitVariant i) = .ok (acc ++ uintToBits 4 i)) ∧
    (∀ acc i v, serialize acc (.vNewtypeVariant i v) =
      serialize (acc ++ uintToBits 4 i) v) ∧
    (∀ acc i l out, serialize acc (.vTupleVariant i l) = .ok out →
      ∃ d, out = acc ++ uintToBits 4 i ++ d) ∧
    (∀ acc i l out, serialize acc (.vStructVariant i l) = .ok out →
      ∃ d, out = acc ++ uintToBits 4 i ++ d) ∧
    (∀ i vars, i < 2 ^ 32 → vars[i]? = some .vsUnit →
      ∃ bs, to_bytes (.vUnitVariant i) = .ok bs ∧
        from_bytes (.sEnum vars) bs = .ok (.vUnitVariant i)) ∧
    (∀ i vars p, i < 2 ^ 32 → isPrimOk p = true →
      vars[i]? = some (.vsNewtype (primShape p)) →
      ∃ bs, to_bytes (.vNewtypeVariant i p) = .ok bs ∧
        from_bytes (.sEnum vars) bs = .ok (.vNewtypeVariant i p)) ∧
    (to_bytes (.vTupleVariant 3 [.vU8 5]) = .ok [3, 0, 0, 0, 43, 24] ∧
      from_bytes (.sEnum [.vsUnit, .vsUnit, .vsUnit, .vsTuple .sU8])
        [3, 0, 0, 0, 43, 24] = .ok (.vTupleVariant 3 [.vU8 5])) ∧
    (to_bytes (.vStructVariant 0 [(.vU8 1, .vU8 2)]) =
        .ok [0, 0, 0, 0, 1, 22, 120, 1] ∧
      from_bytes (.sEnum [.vsStruct .sU8 .sU8]) [0, 0, 0, 0, 1, 22, 120, 1] =
        .ok (.vStructVariant 0 [(.vU8 1, .vU8 2)])) := by
  refine ⟨fun acc i => rfl, fun acc i v => rfl, ?_, ?_, ?_, ?_,
    ⟨rfl, rfl⟩, ⟨rfl, rfl⟩⟩
  · intro acc i l out h
    rw [serialize] at h
    cases hm : serializeTupleVariantElems
        (acc ++ uintToBits 4 i ++ tokenBits .seq) l with
    | error e => rw [hm] at h; simp at h
    | ok acc1 =>
      rw [hm] at h
      simp at h
      obtain ⟨d, hd⟩ := serializeTupleVariantElems_extend l _ acc1 hm
      exact ⟨tokenBits .seq ++ d ++ tokenBits .seq, by
        simp [← h, hd, List.append_assoc]⟩
  · intro acc i l out h
    rw [serialize] at h
    cases hm : serializeMapEntries (acc ++ uintToBits 4 i) l with
    | error e => rw [hm] at h; simp at h
    | ok acc1 =>
      rw [hm] at h
      simp at h
      obtain ⟨d, hd⟩ := serializeMapEntries_extend l _ acc1 hm
      exact ⟨d ++ tokenBits .map, by simp [← h, hd, List.append_assoc]⟩
  · intro i vars hi hv
    refine ⟨natLEBytes 4 i, ?_, ?_⟩
    · have hser : serialize [] (.vUnitVariant i) = .ok ([] ++ uintToBits 4 i) := rfl
      rw [to_bytes, hser, List.nil_append]
      show Except.ok (bitsToBytes (padToByte (uintToBits 4 i))) = _
      rw [padToByte_of_dvd _ ⟨4, by simp⟩,
        show uintToBits 4 i = bytesToBits (natLEBytes 4 i) from rfl,
        bitsToBytes_bytesToBits _ (natLEBytes_lt 4 i)]
    · simp only [from_bytes]
      rw [show bytesToBits (natLEBytes 4 i) = uintToBits 4 i ++ [] from by
          rw [List.append_nil]; rfl,
        decodeF_enum_unit _ i hi vars hv []]
  · intro i vars p hi hp hv
    refine ⟨bitsToBytes (padToByte (uintToBits 4 i ++ primBits p)), ?_, ?_⟩
    · rw [to_bytes, serialize, List.nil_append, serialize_prim _ p hp]
    · have hdata := bytesToBits_bitsToBytes_pad (uintToBits 4 i ++ primBits p)
      have hL : 32 ≤ (padToByte (uintToBits 4 i ++ primBits p)).length := by
        simp [padToByte]
      set L := (padToByte (uintToBits 4 i ++ primBits p)).length with hLdef
      have hfuel : L + 1 = (L - 1) + 1 + 1 := by omega
      have hshape : padToByte (uintToBits 4 i ++ primBits p)
          = uintToBits 4 i ++ (primBits p ++
            List.replicate ((8 - (uintToBits 4 i ++ primBits p).length % 8) % 8) false) := by
        rw [padToByte, List.append_assoc]
      simp only [from_bytes, hdata, ← hLdef]
      rw [hfuel, hshape, decodeF_enum_newtype (L - 1) i hi vars p hp hv _]

/-- C5 witness: the unit-variant and primitive-newtype round trips at
ordinals 1 and 0, and the index-first property of the tuple- and
struct-variant encodings at concrete payloads. -/
theorem c5_enum_index_no_marker_witness :
    (∃ bs, to_bytes (.vUnitVariant 1) = .ok bs ∧
      from_bytes (.sEnum [.vsUnit, .vsUnit]) bs = .ok (.vUnitVariant 1)) ∧
    (∃ bs, to_bytes (.vNewtypeVariant 0 (.vU8 7)) = .ok bs ∧
      from_bytes (.sEnum [.vsNewtype .sU8]) bs = .ok (.vNewtypeVariant 0 (.vU8 7))) ∧
    (∃ d, uintToBits 4 3 ++ tokenBits .seq ++ byteToBits 5 ++ tokenBits .seq
      = [] ++ uintToBits 4 3 ++ d) ∧
    (∃ d, uintToBits 4 0 ++ mapFrameBits [(.vU8 1, .vU8 2)] ++ tokenBits .map
      = [] ++ uintToBits 4 0 ++ d) :=
  ⟨c5_enum_index_no_marker.2.2.2.2.1 1 [.vsUnit, .vsUnit] (by norm_num) rfl,
   c5_enum_index_no_marker.2.2.2.2.2.1 0 [.vsNewtype .sU8] (.vU8 7) (by norm_num)
     (by decide) rfl,
   c5_enum_index_no_marker.2.2.1 [] 3 [.vU8 5]
     (uintToBits 4 3 ++ tokenBits .seq ++ byteToBits 5 ++ tokenBits .seq) rfl,
   c5_enum_index_no_marker.2.2.2.1 [] 0 [(.vU8 1, .vU8 2)]
     (uintToBits 4 0 ++ mapFrameBits [(.vU8 1, .vU8 2)] ++ tokenBits .map) rfl⟩

theorem parseStrLoop_grows (data : List Bool) (acc bs : List Nat) (rest : List Bool)
    (h : parseStrLoop data acc = .ok (bs, rest)) : acc.length < bs.length := by
  induction data, acc using parseStrLoop.induct generalizing bs rest with
  | case1 b0 b1 b2 b3 b4 b5 b6 b7 tail acc e hpeek =>
    simp [parseStrLoop, hpeek] at h
  | case2 b0 b1 b2 b3 b4 b5 b6 b7 tail acc hpeek e heat =>
    simp [parseStrLoop, hpeek, heat] at h
  | case3 b0 b1 b2 b3 b4 b5 b6 b7 tail acc hpeek bits heat =>
    simp [parseStrLoop, hpeek, heat] at h
    simp [← h.1]
  | case4 b0 b1 b2 b3 b4 b5 b6 b7 tail acc acc1 hpeek ih =>
    simp [parseStrLoop, hpeek] at h
    have hlt := ih bs rest h
    simp only [acc1, List.length_append, List.length_cons, List.length_nil] at hlt
    omega
  | case5 data acc hne =>
    rw [parseStrLoop.eq_def] at h
    split at h
    · rename_i b0 b1 b2 b3 b4 b5 b6 b7 tail
      exact absurd rfl (hne b0 b1 b2 b3 b4 b5 b6 b7 tail)
    · exact absurd h (by simp)

/-- C10: `parse_str` eats one payload byte before its first check for the
closing `String` token, so a successful string decode always returns at
least one byte; in particular the encoder's output for the empty string —
the lone `String` delimiter byte `134` — never decodes back to the empty
string: decoding it fails (the delimiter byte is consumed as payload and
the input is exhausted). -/
theorem c10_string_decode_never_empty :
    (∀ data bs rest, parse_str data = .ok (bs, rest) → bs ≠ []) ∧
    to_bytes (.vStr []) = .ok [134] ∧
    from_bytes .sStr [134] = .error (.NLargerThanLength 8 0) := by
  refine ⟨?_, rfl, rfl⟩
  intro data bs rest h
  rw [parse_str] at h
  cases hloop : parseStrLoop data [] with
  | error e => rw [hloop] at h; exact absurd h (by simp)
  | ok pr =>
    obtain ⟨bs0, r0⟩ := pr
    rw [hloop] at h
    have hlt := parseStrLoop_grows data [] bs0 r0 hloop
    by_cases hv : utf8Valid bs0 = true
    · simp only [hv, if_true] at h
      obtain ⟨rfl, rfl⟩ : bs0 = bs ∧ r0 = rest := by
        simpa using h
      simp only [List.length_nil] at hlt
      exact List.ne_nil_of_length_pos hlt
    · simp only [Bool.not_eq_true] at hv
      simp [hv] at h

/-- C10 witness: the non-emptiness fact applied to the decode of the
one-byte string `"a"`. -/
theorem c10_string_decode_never_empty_witness :
    parse_str (bytesToBits [97, 134]) = .ok ([97], []) ∧ ([97] : List Nat) ≠ [] :=
  ⟨rfl, c10_string_decode_never_empty.1 (bytesToBits [97, 134]) [97] [] rfl⟩
